import Mathlib

/-!
# Extent-status records of `fs/ext4mj/extents_status.h`

A shallow embedding of the inline accessors of `struct extent_status` and of
the extent-status tree operations declared in the header.

Machine integers are natural numbers; every C operation that can leave the
range of its type is followed by an explicit reduction modulo `2 ^ width`.
-/

namespace Ext4mj

/-! ## Integer types -/

/-- Modelled from the spec: the typedef `ext4mj_fsblk_t` is declared in
`ext4mj.h`, outside the header; it is a 64-bit unsigned integer, so
`sizeof(ext4mj_fsblk_t)` is 8. -/
def sizeof_ext4mj_fsblk_t : Nat := 8

/-- Number of values of `ext4mj_fsblk_t`. -/
def FSBLK_MOD : Nat := 2 ^ (sizeof_ext4mj_fsblk_t * 8)

/-- Number of values of `unsigned int`. -/
def UINT_MOD : Nat := 2 ^ 32

/-- C `~x` at type `ext4mj_fsblk_t`: every one of the 64 bits is flipped. -/
def fsblk_not (x : Nat) : Nat := x ^^^ (FSBLK_MOD - 1)

/-- C `x << n` at type `ext4mj_fsblk_t`: bits shifted past the top are lost. -/
def fsblk_shl (x n : Nat) : Nat := (x <<< n) % FSBLK_MOD

/-- C `(ext4mj_fsblk_t)x` for an unsigned `x`. -/
def fsblk_cast (x : Nat) : Nat := x % FSBLK_MOD

/-- C `(unsigned int)x` for an unsigned `x`. -/
def uint_cast (x : Nat) : Nat := x % UINT_MOD

/-! ## Flag constants (lines 35-56 of the header) -/

def ES_WRITTEN_B : Nat := 0
def ES_UNWRITTEN_B : Nat := 1
def ES_DELAYED_B : Nat := 2
def ES_HOLE_B : Nat := 3
def ES_REFERENCED_B : Nat := 4
def ES_FLAGS : Nat := 5

def ES_SHIFT : Nat := sizeof_ext4mj_fsblk_t * 8 - ES_FLAGS

def ES_MASK : Nat := fsblk_shl (fsblk_not (fsblk_cast 0)) ES_SHIFT

def EXTENT_STATUS_WRITTEN : Nat := 1 <<< ES_WRITTEN_B
def EXTENT_STATUS_UNWRITTEN : Nat := 1 <<< ES_UNWRITTEN_B
def EXTENT_STATUS_DELAYED : Nat := 1 <<< ES_DELAYED_B
def EXTENT_STATUS_HOLE : Nat := 1 <<< ES_HOLE_B
def EXTENT_STATUS_REFERENCED : Nat := 1 <<< ES_REFERENCED_B

def ES_TYPE_MASK : Nat :=
  fsblk_shl
    (fsblk_cast (EXTENT_STATUS_WRITTEN ||| EXTENT_STATUS_UNWRITTEN |||
      EXTENT_STATUS_DELAYED ||| EXTENT_STATUS_HOLE))
    ES_SHIFT

/-! ## The record -/

/-- The `struct extent_status` fields that carry data; `rb_node` is the tree
linkage and is represented by the position of the record in the tree. -/
structure extent_status where
  /-- first logical block extent covers -/
  es_lblk : Nat
  /-- length of extent in block -/
  es_len : Nat
  /-- first physical block, with the flags in the high bits -/
  es_pblk : Nat
deriving DecidableEq, Repr

/-! ## Inline accessors (lines 101-173) -/

def ext4mj_es_status (es : extent_status) : Nat :=
  uint_cast (es.es_pblk >>> ES_SHIFT)

def ext4mj_es_type (es : extent_status) : Nat :=
  uint_cast ((es.es_pblk &&& ES_TYPE_MASK) >>> ES_SHIFT)

def ext4mj_es_is_written (es : extent_status) : Int :=
  if ext4mj_es_type es &&& EXTENT_STATUS_WRITTEN ≠ 0 then 1 else 0

def ext4mj_es_is_unwritten (es : extent_status) : Int :=
  if ext4mj_es_type es &&& EXTENT_STATUS_UNWRITTEN ≠ 0 then 1 else 0

def ext4mj_es_is_delayed (es : extent_status) : Int :=
  if ext4mj_es_type es &&& EXTENT_STATUS_DELAYED ≠ 0 then 1 else 0

def ext4mj_es_is_hole (es : extent_status) : Int :=
  if ext4mj_es_type es &&& EXTENT_STATUS_HOLE ≠ 0 then 1 else 0

def ext4mj_es_set_referenced (es : extent_status) : extent_status :=
  { es with
    es_pblk := es.es_pblk ||| fsblk_shl (fsblk_cast EXTENT_STATUS_REFERENCED) ES_SHIFT }

def ext4mj_es_clear_referenced (es : extent_status) : extent_status :=
  { es with
    es_pblk :=
      es.es_pblk &&& fsblk_not (fsblk_shl (fsblk_cast EXTENT_STATUS_REFERENCED) ES_SHIFT) }

def ext4mj_es_is_referenced (es : extent_status) : Int :=
  if ext4mj_es_status es &&& EXTENT_STATUS_REFERENCED ≠ 0 then 1 else 0

def ext4mj_es_pblock (es : extent_status) : Nat :=
  es.es_pblk &&& fsblk_not ES_MASK

def ext4mj_es_store_pblock (es : extent_status) (pb : Nat) : extent_status :=
  let block := (pb &&& fsblk_not ES_MASK) ||| (es.es_pblk &&& ES_MASK)
  { es with es_pblk := block }

def ext4mj_es_store_status (es : extent_status) (status : Nat) : extent_status :=
  { es with
    es_pblk :=
      (fsblk_shl (fsblk_cast status) ES_SHIFT &&& ES_MASK) |||
        (es.es_pblk &&& fsblk_not ES_MASK) }

def ext4mj_es_store_pblock_status (es : extent_status) (pb : Nat) (status : Nat) :
    extent_status :=
  { es with
    es_pblk :=
      (fsblk_shl (fsblk_cast status) ES_SHIFT &&& ES_MASK) ||| (pb &&& fsblk_not ES_MASK) }

/-! ## The getters as calls on the pointed-to record

Every getter receives `struct extent_status *es`, a pointer it could write
through. In this form a call returns its value together with the record as the
call leaves it, and a nested call hands its record on to its caller. -/

def ext4mj_es_status_call (es : extent_status) : Nat × extent_status :=
  (uint_cast (es.es_pblk >>> ES_SHIFT), es)

def ext4mj_es_type_call (es : extent_status) : Nat × extent_status :=
  (uint_cast ((es.es_pblk &&& ES_TYPE_MASK) >>> ES_SHIFT), es)

def ext4mj_es_is_written_call (es : extent_status) : Int × extent_status :=
  let r := ext4mj_es_type_call es
  (if r.1 &&& EXTENT_STATUS_WRITTEN ≠ 0 then 1 else 0, r.2)

def ext4mj_es_is_unwritten_call (es : extent_status) : Int × extent_status :=
  let r := ext4mj_es_type_call es
  (if r.1 &&& EXTENT_STATUS_UNWRITTEN ≠ 0 then 1 else 0, r.2)

def ext4mj_es_is_delayed_call (es : extent_status) : Int × extent_status :=
  let r := ext4mj_es_type_call es
  (if r.1 &&& EXTENT_STATUS_DELAYED ≠ 0 then 1 else 0, r.2)

def ext4mj_es_is_hole_call (es : extent_status) : Int × extent_status :=
  let r := ext4mj_es_type_call es
  (if r.1 &&& EXTENT_STATUS_HOLE ≠ 0 then 1 else 0, r.2)

def ext4mj_es_is_referenced_call (es : extent_status) : Int × extent_status :=
  let r := ext4mj_es_status_call es
  (if r.1 &&& EXTENT_STATUS_REFERENCED ≠ 0 then 1 else 0, r.2)

def ext4mj_es_pblock_call (es : extent_status) : Nat × extent_status :=
  (es.es_pblk &&& fsblk_not ES_MASK, es)

/-! ## The extent-status tree

The header only declares the tree operations; their bodies are in
`extents_status.c`. They are modelled here from the component design of the
specification (sections 3 and 4.2 to 4.5). The statistics counters play no part
in the records a tree holds and are left out. Every operation takes the tree of
the inode it is called on and returns the updated tree; `alloc_ok` says
whether the record allocator can serve the call. -/

/-- The `struct ext4mj_es_tree`: `root` lists the records of the red-black tree
in key order, `cache_es` is the recently accessed extent. -/
structure ext4mj_es_tree where
  root : List extent_status
  cache_es : Option extent_status
deriving DecidableEq, Repr

/-- Modelled from the spec: the allocation_failure result of section 6; the
errno constant is declared outside the sources. -/
def ENOMEM : Int := 12

/-- Modelled from the spec: the body of `ext4mj_es_init_tree` is missing; a
fresh tree holds no record and its most-recently-used slot is empty. -/
def ext4mj_es_init_tree : ext4mj_es_tree :=
  { root := [], cache_es := none }

/-- Modelled from the spec: the cache-slot rule of sections 3 and 4.2, whose
code is missing; the slot is cleared whenever the record it references is no
longer in the tree. -/
def es_revalidate_cache (root : List extent_status) :
    Option extent_status → Option extent_status
  | none => none
  | some es => if es ∈ root then some es else none

/-- Modelled from the spec: the surviving right portion of a record cut at
`end_` (section 4.5, code missing): same status, and for the mapped statuses
(written, unwritten) the physical start moved by the same offset. -/
def es_right_part (es : extent_status) (end_ : Nat) : extent_status :=
  let moved : extent_status :=
    { es with es_lblk := end_, es_len := es.es_lblk + es.es_len - end_ }
  if ext4mj_es_is_written es ≠ 0 ∨ ext4mj_es_is_unwritten es ≠ 0 then
    ext4mj_es_store_pblock moved (fsblk_cast (ext4mj_es_pblock es + (end_ - es.es_lblk)))
  else moved

/-- Modelled from the spec: what section 4.5 leaves of one record when
`[lblk, end_)` is removed (code missing). A record outside the range is kept, a
record inside it is deleted, a straddling record keeps its portions outside
the range; when both portions survive a new record is needed, and if it cannot
be allocated the whole straddling record is dropped. -/
def es_remove_from_record (alloc_ok : Bool) (lblk end_ : Nat) (es : extent_status) :
    List extent_status :=
  if es.es_lblk + es.es_len ≤ lblk ∨ end_ ≤ es.es_lblk then [es]
  else
    let keep_left : Bool := decide (es.es_lblk < lblk)
    let keep_right : Bool := decide (end_ < es.es_lblk + es.es_len)
    if keep_left && keep_right && !alloc_ok then []
    else
      (if keep_left then [{ es with es_len := lblk - es.es_lblk }] else []) ++
        (if keep_right then [es_right_part es end_] else [])

/-- Modelled from the spec: removal of `[lblk, end_)` from every record of the
tree, in key order (section 4.5, code missing). -/
def es_remove_range (alloc_ok : Bool) (lblk end_ : Nat) :
    List extent_status → List extent_status
  | [] => []
  | es :: rest =>
    es_remove_from_record alloc_ok lblk end_ es ++ es_remove_range alloc_ok lblk end_ rest

/-- Modelled from the spec: a record straddles both boundaries of
`[lblk, end_)`, so that removing the range needs a new record (section 4.5,
code missing). -/
def es_needs_split (lblk end_ : Nat) (es : extent_status) : Bool :=
  decide (es.es_lblk < lblk ∧ end_ < es.es_lblk + es.es_len)

/-- Modelled from the spec: `ext4mj_es_remove_extent`, whose body is missing
(section 4.5). Returns the result code and the updated tree; an empty range
removes nothing. -/
def ext4mj_es_remove_extent (alloc_ok : Bool) (tree : ext4mj_es_tree) (lblk len : Nat) :
    Int × ext4mj_es_tree :=
  if len = 0 then (0, tree)
  else
    let end_ := lblk + len
    let root := es_remove_range alloc_ok lblk end_ tree.root
    let tree1 : ext4mj_es_tree :=
      { root := root, cache_es := es_revalidate_cache root tree.cache_es }
    if !alloc_ok && tree.root.any (es_needs_split lblk end_) then (-ENOMEM, tree1)
    else (0, tree1)

/-- Modelled from the spec: the merge rule of sections 3 and 4.2 for a record
`es1` directly left of `es2` (code missing): identical status, contiguous
logical ranges and, for the mapped statuses, contiguous physical addresses. -/
def es_can_be_merged (es1 es2 : extent_status) : Bool :=
  decide (ext4mj_es_type es1 = ext4mj_es_type es2 ∧
    es1.es_lblk + es1.es_len = es2.es_lblk ∧
    ((ext4mj_es_is_written es1 ≠ 0 ∨ ext4mj_es_is_unwritten es1 ≠ 0) →
      ext4mj_es_pblock es1 + es1.es_len = ext4mj_es_pblock es2))

/-- Modelled from the spec: the record covering two merged neighbours (section
4.2, code missing). -/
def es_merge (es1 es2 : extent_status) : extent_status :=
  { es1 with es_len := es1.es_len + es2.es_len }

/-- Modelled from the spec: placing the new record among records that do not
overlap it and merging it with its immediate left and right neighbours when
they are compatible (section 4.2, code missing). -/
def es_insert_merge (newes : extent_status) : List extent_status → List extent_status
  | [] => [newes]
  | es :: rest =>
    if newes.es_lblk < es.es_lblk then
      if es_can_be_merged newes es then es_merge newes es :: rest
      else newes :: es :: rest
    else if es_can_be_merged es newes then es_insert_merge (es_merge es newes) rest
    else es :: es_insert_merge newes rest

/-- Modelled from the spec: `ext4mj_es_insert_extent`, whose body is missing
(section 4.2). Existing knowledge about the range is removed, then the new
record is placed and merged. On allocation failure the tree is returned as it
was; a call that breaks the precondition `len > 0` changes nothing. -/
def ext4mj_es_insert_extent (alloc_ok : Bool) (tree : ext4mj_es_tree)
    (lblk len pblk status : Nat) : Int × ext4mj_es_tree :=
  if len = 0 then (0, tree)
  else if !alloc_ok then (-ENOMEM, tree)
  else
    let newes : extent_status :=
      ext4mj_es_store_pblock_status { es_lblk := lblk, es_len := len, es_pblk := 0 } pblk status
    let root := es_insert_merge newes (es_remove_range true lblk (lblk + len) tree.root)
    (0, { root := root, cache_es := es_revalidate_cache root tree.cache_es })

/-- Modelled from the spec: a record's range contains the block `lblk`
(section 4.4, code missing). -/
def es_covers (lblk : Nat) (es : extent_status) : Bool :=
  decide (es.es_lblk ≤ lblk ∧ lblk < es.es_lblk + es.es_len)

/-- Modelled from the spec: `ext4mj_es_lookup_extent`, whose body is missing
(section 4.4). The most-recently-used slot is tried first, then the tree; on a
hit the record gets its referenced flag set and becomes the cached record.
`some es` is the result found with record `es`, `none` is not found. -/
def ext4mj_es_lookup_extent (tree : ext4mj_es_tree) (lblk : Nat) :
    Option extent_status × ext4mj_es_tree :=
  let hit : Option extent_status :=
    match tree.cache_es with
    | some c => if es_covers lblk c then some c else tree.root.find? (es_covers lblk)
    | none => tree.root.find? (es_covers lblk)
  match hit with
  | none => (none, tree)
  | some es =>
    let es1 := ext4mj_es_set_referenced es
    (some es1,
      { root := tree.root.map (fun r => if r = es then es1 else r), cache_es := some es1 })

/-- Tree states reachable from the empty tree by insert and remove calls with
`len > 0`, whatever the allocator answers. -/
inductive Reachable : ext4mj_es_tree → Prop
  | init : Reachable ext4mj_es_init_tree
  | insert (alloc_ok : Bool) (tree : ext4mj_es_tree) (lblk len pblk status : Nat) :
      Reachable tree → 0 < len →
      Reachable (ext4mj_es_insert_extent alloc_ok tree lblk len pblk status).2
  | remove (alloc_ok : Bool) (tree : ext4mj_es_tree) (lblk len : Nat) :
      Reachable tree → 0 < len →
      Reachable (ext4mj_es_remove_extent alloc_ok tree lblk len).2

/-- Records in key order, each ending before the next starts, none empty. -/
def es_sorted_disjoint (l : List extent_status) : Prop :=
  l.Pairwise (fun a b => a.es_lblk + a.es_len ≤ b.es_lblk) ∧ ∀ a ∈ l, 0 < a.es_len

/-! ## Evaluated constants -/

theorem ES_SHIFT_eq : ES_SHIFT = 59 := by decide

theorem FSBLK_MOD_eq : FSBLK_MOD = 2 ^ 64 := by decide

theorem ES_MASK_eq : ES_MASK = (2 ^ 5 - 1) <<< 59 := by rfl

theorem not_ES_MASK_eq : fsblk_not ES_MASK = 2 ^ 59 - 1 := by rfl

theorem ES_TYPE_MASK_eq : ES_TYPE_MASK = (2 ^ 4 - 1) <<< 59 := by rfl

theorem referenced_bit_eq :
    fsblk_shl (fsblk_cast EXTENT_STATUS_REFERENCED) ES_SHIFT = 2 ^ 63 := by rfl

theorem not_referenced_bit_eq :
    fsblk_not (fsblk_shl (fsblk_cast EXTENT_STATUS_REFERENCED) ES_SHIFT) = 2 ^ 63 - 1 := by
  rfl

theorem and_two_pow_ne_zero (x k : Nat) : x &&& 2 ^ k ≠ 0 ↔ x.testBit k = true := by
  constructor
  · intro h
    by_contra hb
    apply h
    apply Nat.eq_of_testBit_eq
    intro i
    simp only [Nat.testBit_and, Nat.testBit_two_pow, Nat.zero_testBit]
    by_cases hik : k = i
    · subst hik; simp [hb]
    · simp [hik]
  · intro hb h
    have := congrArg (fun n => n.testBit k) h
    simp [hb, Nat.testBit_two_pow] at this

theorem pblock_eq (es : extent_status) : ext4mj_es_pblock es = es.es_pblk % 2 ^ 59 := by
  unfold ext4mj_es_pblock
  rw [not_ES_MASK_eq, Nat.and_pow_two_sub_one_eq_mod]

theorem testBit_ES_MASK (i : Nat) : ES_MASK.testBit i = (decide (59 ≤ i) && decide (i < 64)) := by
  rw [ES_MASK_eq, Nat.testBit_shiftLeft, Nat.testBit_two_pow_sub_one]
  by_cases h : 59 ≤ i <;> simp [h]
  omega

theorem testBit_not_ES_MASK (i : Nat) : (fsblk_not ES_MASK).testBit i = decide (i < 59) := by
  rw [not_ES_MASK_eq, Nat.testBit_two_pow_sub_one]

theorem testBit_ES_TYPE_MASK (i : Nat) :
    ES_TYPE_MASK.testBit i = (decide (59 ≤ i) && decide (i < 63)) := by
  rw [ES_TYPE_MASK_eq, Nat.testBit_shiftLeft, Nat.testBit_two_pow_sub_one]
  by_cases h : 59 ≤ i <;> simp [h]
  omega

theorem testBit_status (es : extent_status) (i : Nat) :
    (ext4mj_es_status es).testBit i = (decide (i < 32) && es.es_pblk.testBit (59 + i)) := by
  unfold ext4mj_es_status uint_cast UINT_MOD
  rw [Nat.testBit_mod_two_pow, Nat.testBit_shiftRight, ES_SHIFT_eq]

theorem testBit_type (es : extent_status) (i : Nat) :
    (ext4mj_es_type es).testBit i = (decide (i < 4) && es.es_pblk.testBit (59 + i)) := by
  unfold ext4mj_es_type uint_cast UINT_MOD
  rw [Nat.testBit_mod_two_pow, Nat.testBit_shiftRight, ES_SHIFT_eq, Nat.testBit_and,
    testBit_ES_TYPE_MASK]
  by_cases h : i < 4
  · have h1 : i < 32 := by omega
    have h2 : 59 + i < 63 := by omega
    simp [h, h1, h2]
  · have h2 : ¬ 59 + i < 63 := by omega
    simp [h, h2]

theorem is_written_eq (es : extent_status) :
    ext4mj_es_is_written es = if es.es_pblk.testBit 59 then 1 else 0 := by
  unfold ext4mj_es_is_written
  have h : EXTENT_STATUS_WRITTEN = 2 ^ 0 := rfl
  rw [h]
  simp only [and_two_pow_ne_zero, testBit_type]
  simp

theorem is_unwritten_eq (es : extent_status) :
    ext4mj_es_is_unwritten es = if es.es_pblk.testBit 60 then 1 else 0 := by
  unfold ext4mj_es_is_unwritten
  have h : EXTENT_STATUS_UNWRITTEN = 2 ^ 1 := rfl
  rw [h]
  simp only [and_two_pow_ne_zero, testBit_type]
  simp

theorem is_delayed_eq (es : extent_status) :
    ext4mj_es_is_delayed es = if es.es_pblk.testBit 61 then 1 else 0 := by
  unfold ext4mj_es_is_delayed
  have h : EXTENT_STATUS_DELAYED = 2 ^ 2 := rfl
  rw [h]
  simp only [and_two_pow_ne_zero, testBit_type]
  simp

theorem is_hole_eq (es : extent_status) :
    ext4mj_es_is_hole es = if es.es_pblk.testBit 62 then 1 else 0 := by
  unfold ext4mj_es_is_hole
  have h : EXTENT_STATUS_HOLE = 2 ^ 3 := rfl
  rw [h]
  simp only [and_two_pow_ne_zero, testBit_type]
  simp

theorem is_referenced_eq (es : extent_status) :
    ext4mj_es_is_referenced es = if es.es_pblk.testBit 63 then 1 else 0 := by
  unfold ext4mj_es_is_referenced
  have h : EXTENT_STATUS_REFERENCED = 2 ^ 4 := rfl
  rw [h]
  simp only [and_two_pow_ne_zero, testBit_status]
  simp

theorem testBit_set_referenced (es : extent_status) (i : Nat) :
    (ext4mj_es_set_referenced es).es_pblk.testBit i =
      (es.es_pblk.testBit i || decide (i = 63)) := by
  unfold ext4mj_es_set_referenced
  simp only [referenced_bit_eq, Nat.testBit_or, Nat.testBit_two_pow]
  by_cases h : i = 63
  · subst h; simp
  · have h2 : ¬ 63 = i := fun e => h e.symm
    simp [h, h2]

theorem testBit_clear_referenced (es : extent_status) (i : Nat) :
    (ext4mj_es_clear_referenced es).es_pblk.testBit i =
      (es.es_pblk.testBit i && decide (i < 63)) := by
  unfold ext4mj_es_clear_referenced
  simp only [not_referenced_bit_eq, Nat.testBit_and, Nat.testBit_two_pow_sub_one]

theorem testBit_store_pblock (es : extent_status) (pb i : Nat) :
    (ext4mj_es_store_pblock es pb).es_pblk.testBit i =
      ((pb.testBit i && decide (i < 59)) ||
        (es.es_pblk.testBit i && (decide (59 ≤ i) && decide (i < 64)))) := by
  unfold ext4mj_es_store_pblock
  simp only [Nat.testBit_or, Nat.testBit_and, testBit_not_ES_MASK, testBit_ES_MASK]

theorem testBit_status_field (status i : Nat) :
    (fsblk_shl (fsblk_cast status) ES_SHIFT &&& ES_MASK).testBit i =
      (decide (59 ≤ i) && decide (i < 64) && status.testBit (i - 59)) := by
  unfold fsblk_shl fsblk_cast
  rw [Nat.testBit_and, testBit_ES_MASK, FSBLK_MOD_eq, Nat.testBit_mod_two_pow,
    Nat.testBit_shiftLeft, Nat.testBit_mod_two_pow, ES_SHIFT_eq]
  by_cases h1 : 59 ≤ i <;> by_cases h2 : i < 64 <;> simp [h1, h2]
  intro _
  omega

theorem testBit_store_status (es : extent_status) (status i : Nat) :
    (ext4mj_es_store_status es status).es_pblk.testBit i =
      ((decide (59 ≤ i) && decide (i < 64) && status.testBit (i - 59)) ||
        (es.es_pblk.testBit i && decide (i < 59))) := by
  unfold ext4mj_es_store_status
  rw [Nat.testBit_or, testBit_status_field, Nat.testBit_and, testBit_not_ES_MASK]

theorem testBit_store_pblock_status (es : extent_status) (pb status i : Nat) :
    (ext4mj_es_store_pblock_status es pb status).es_pblk.testBit i =
      ((decide (59 ≤ i) && decide (i < 64) && status.testBit (i - 59)) ||
        (pb.testBit i && decide (i < 59))) := by
  unfold ext4mj_es_store_pblock_status
  rw [Nat.testBit_or, testBit_status_field, Nat.testBit_and, testBit_not_ES_MASK]

theorem testBit_of_lt_fsblk {x i : Nat} (hx : x < 2 ^ 64) (hi : 64 ≤ i) :
    x.testBit i = false := by
  apply Nat.testBit_lt_two_pow
  calc x < 2 ^ 64 := hx
    _ ≤ 2 ^ i := Nat.pow_le_pow_right (by decide) hi

theorem status_store_status (es : extent_status) (s : Nat) :
    ext4mj_es_status (ext4mj_es_store_status es s) = s % 2 ^ 5 := by
  apply Nat.eq_of_testBit_eq
  intro i
  rw [testBit_status, testBit_store_status, Nat.testBit_mod_two_pow]
  have e : 59 + i - 59 = i := by omega
  rw [e]
  by_cases h : i < 5
  · have h1 : i < 32 := by omega
    have h2 : 59 + i < 64 := by omega
    simp [h, h1, h2]
  · have h2 : ¬ 59 + i < 64 := by omega
    simp [h, h2]

theorem status_store_pblock_status (es : extent_status) (pb s : Nat) :
    ext4mj_es_status (ext4mj_es_store_pblock_status es pb s) = s % 2 ^ 5 := by
  apply Nat.eq_of_testBit_eq
  intro i
  rw [testBit_status, testBit_store_pblock_status, Nat.testBit_mod_two_pow]
  have e : 59 + i - 59 = i := by omega
  rw [e]
  by_cases h : i < 5
  · have h1 : i < 32 := by omega
    have h2 : 59 + i < 64 := by omega
    simp [h, h1, h2]
  · have h2 : ¬ 59 + i < 64 := by omega
    simp [h, h2]

/-- C1 (as stated, refuted): storing `EXTENT_STATUS_WRITTEN` into a record whose
referenced flag is set changes the value returned by `ext4mj_es_is_referenced`. -/
theorem C1_store_status_disturbs_referenced :
    ext4mj_es_is_referenced
        (ext4mj_es_store_status ⟨0, 1, 2 ^ 63 + 7⟩ EXTENT_STATUS_WRITTEN) ≠
      ext4mj_es_is_referenced ⟨0, 1, 2 ^ 63 + 7⟩ := by
  decide

/-- C1 (amended): for each of the four status values `s`, after
`ext4mj_es_store_status(es, s)` the referenced flag reads zero whatever it was
before, so it keeps its value exactly when it was already clear. -/
theorem C1_store_status_clears_referenced (es : extent_status) (s : Nat)
    (hs : s = EXTENT_STATUS_WRITTEN ∨ s = EXTENT_STATUS_UNWRITTEN ∨
      s = EXTENT_STATUS_DELAYED ∨ s = EXTENT_STATUS_HOLE) :
    ext4mj_es_is_referenced (ext4mj_es_store_status es s) = 0 ∧
      (ext4mj_es_is_referenced (ext4mj_es_store_status es s) = ext4mj_es_is_referenced es ↔
        ext4mj_es_is_referenced es = 0) := by
  have h0 : ext4mj_es_is_referenced (ext4mj_es_store_status es s) = 0 := by
    have hb : s.testBit (63 - 59) = false := by
      rcases hs with rfl | rfl | rfl | rfl <;> decide
    rw [is_referenced_eq, testBit_store_status, hb]
    simp
  refine ⟨h0, ?_⟩
  rw [h0]
  exact eq_comm

theorem C1_store_status_clears_referenced_witness :
    (EXTENT_STATUS_HOLE = EXTENT_STATUS_WRITTEN ∨ EXTENT_STATUS_HOLE = EXTENT_STATUS_UNWRITTEN ∨
      EXTENT_STATUS_HOLE = EXTENT_STATUS_DELAYED ∨ EXTENT_STATUS_HOLE = EXTENT_STATUS_HOLE) ∧
    (ext4mj_es_is_referenced
        (ext4mj_es_store_status ⟨0, 1, 2 ^ 63 + 7⟩ EXTENT_STATUS_HOLE) = 0 ∧
      (ext4mj_es_is_referenced
          (ext4mj_es_store_status ⟨0, 1, 2 ^ 63 + 7⟩ EXTENT_STATUS_HOLE) =
          ext4mj_es_is_referenced ⟨0, 1, 2 ^ 63 + 7⟩ ↔
        ext4mj_es_is_referenced ⟨0, 1, 2 ^ 63 + 7⟩ = 0)) :=
  ⟨Or.inr (Or.inr (Or.inr rfl)),
    C1_store_status_clears_referenced ⟨0, 1, 2 ^ 63 + 7⟩ EXTENT_STATUS_HOLE
      (Or.inr (Or.inr (Or.inr rfl)))⟩

/-- C2: `ext4mj_es_store_pblock` leaves the whole flag field of a 64-bit
`es_pblk` unchanged, for every `pb`: status, type, the four status predicates
and the referenced flag read the same after the call as before. -/
theorem C2_store_pblock_preserves_flags (es : extent_status) (pb : Nat)
    (h : es.es_pblk < 2 ^ 64) :
    ext4mj_es_status (ext4mj_es_store_pblock es pb) = ext4mj_es_status es ∧
      ext4mj_es_type (ext4mj_es_store_pblock es pb) = ext4mj_es_type es ∧
      ext4mj_es_is_written (ext4mj_es_store_pblock es pb) = ext4mj_es_is_written es ∧
      ext4mj_es_is_unwritten (ext4mj_es_store_pblock es pb) = ext4mj_es_is_unwritten es ∧
      ext4mj_es_is_delayed (ext4mj_es_store_pblock es pb) = ext4mj_es_is_delayed es ∧
      ext4mj_es_is_hole (ext4mj_es_store_pblock es pb) = ext4mj_es_is_hole es ∧
      ext4mj_es_is_referenced (ext4mj_es_store_pblock es pb) = ext4mj_es_is_referenced es := by
  refine ⟨?_, ?_, ?_, ?_, ?_, ?_, ?_⟩
  · apply Nat.eq_of_testBit_eq
    intro i
    rw [testBit_status, testBit_status, testBit_store_pblock]
    by_cases hi : 59 + i < 64
    · have h1 : ¬ 59 + i < 59 := by omega
      simp [hi, h1]
    · have h1 : es.es_pblk.testBit (59 + i) = false := testBit_of_lt_fsblk h (by omega)
      have h2 : ¬ 59 + i < 59 := by omega
      simp [hi, h1, h2]
  · apply Nat.eq_of_testBit_eq
    intro i
    rw [testBit_type, testBit_type, testBit_store_pblock]
    by_cases hi : i < 4
    · have h1 : ¬ 59 + i < 59 := by omega
      have h2 : 59 + i < 64 := by omega
      simp [hi, h1, h2]
    · simp [hi]
  · rw [is_written_eq, is_written_eq, testBit_store_pblock]; simp
  · rw [is_unwritten_eq, is_unwritten_eq, testBit_store_pblock]; simp
  · rw [is_delayed_eq, is_delayed_eq, testBit_store_pblock]; simp
  · rw [is_hole_eq, is_hole_eq, testBit_store_pblock]; simp
  · rw [is_referenced_eq, is_referenced_eq, testBit_store_pblock]; simp

theorem C2_store_pblock_preserves_flags_witness :
    (2 ^ 63 + 2 ^ 60 + 9 < 2 ^ 64) ∧
      ext4mj_es_status (ext4mj_es_store_pblock ⟨4, 2, 2 ^ 63 + 2 ^ 60 + 9⟩ (2 ^ 64 - 1)) =
        ext4mj_es_status ⟨4, 2, 2 ^ 63 + 2 ^ 60 + 9⟩ ∧
      ext4mj_es_type (ext4mj_es_store_pblock ⟨4, 2, 2 ^ 63 + 2 ^ 60 + 9⟩ (2 ^ 64 - 1)) =
        ext4mj_es_type ⟨4, 2, 2 ^ 63 + 2 ^ 60 + 9⟩ ∧
      ext4mj_es_is_written (ext4mj_es_store_pblock ⟨4, 2, 2 ^ 63 + 2 ^ 60 + 9⟩ (2 ^ 64 - 1)) =
        ext4mj_es_is_written ⟨4, 2, 2 ^ 63 + 2 ^ 60 + 9⟩ ∧
      ext4mj_es_is_unwritten (ext4mj_es_store_pblock ⟨4, 2, 2 ^ 63 + 2 ^ 60 + 9⟩ (2 ^ 64 - 1)) =
        ext4mj_es_is_unwritten ⟨4, 2, 2 ^ 63 + 2 ^ 60 + 9⟩ ∧
      ext4mj_es_is_delayed (ext4mj_es_store_pblock ⟨4, 2, 2 ^ 63 + 2 ^ 60 + 9⟩ (2 ^ 64 - 1)) =
        ext4mj_es_is_delayed ⟨4, 2, 2 ^ 63 + 2 ^ 60 + 9⟩ ∧
      ext4mj_es_is_hole (ext4mj_es_store_pblock ⟨4, 2, 2 ^ 63 + 2 ^ 60 + 9⟩ (2 ^ 64 - 1)) =
        ext4mj_es_is_hole ⟨4, 2, 2 ^ 63 + 2 ^ 60 + 9⟩ ∧
      ext4mj_es_is_referenced
          (ext4mj_es_store_pblock ⟨4, 2, 2 ^ 63 + 2 ^ 60 + 9⟩ (2 ^ 64 - 1)) =
        ext4mj_es_is_referenced ⟨4, 2, 2 ^ 63 + 2 ^ 60 + 9⟩ :=
  ⟨by decide,
    C2_store_pblock_preserves_flags ⟨4, 2, 2 ^ 63 + 2 ^ 60 + 9⟩ (2 ^ 64 - 1) (by decide)⟩

/-- C3: `ext4mj_es_store_status` leaves the physical address unchanged, for
every status argument: `ext4mj_es_pblock` reads the same after the call. -/
theorem C3_store_status_preserves_pblock (es : extent_status) (s : Nat) :
    ext4mj_es_pblock (ext4mj_es_store_status es s) = ext4mj_es_pblock es := by
  rw [pblock_eq, pblock_eq]
  apply Nat.eq_of_testBit_eq
  intro i
  rw [Nat.testBit_mod_two_pow, Nat.testBit_mod_two_pow, testBit_store_status]
  by_cases hi : i < 59
  · have h1 : ¬ 59 ≤ i := by omega
    simp [hi, h1]
  · simp [hi]

/-- C4: `ext4mj_es_set_referenced` and `ext4mj_es_clear_referenced` leave the
physical address, the type and each of the four status predicates unchanged. -/
theorem C4_referenced_setters_preserve_pblock_and_type (es : extent_status) :
    (ext4mj_es_pblock (ext4mj_es_set_referenced es) = ext4mj_es_pblock es ∧
      ext4mj_es_type (ext4mj_es_set_referenced es) = ext4mj_es_type es ∧
      ext4mj_es_is_written (ext4mj_es_set_referenced es) = ext4mj_es_is_written es ∧
      ext4mj_es_is_unwritten (ext4mj_es_set_referenced es) = ext4mj_es_is_unwritten es ∧
      ext4mj_es_is_delayed (ext4mj_es_set_referenced es) = ext4mj_es_is_delayed es ∧
      ext4mj_es_is_hole (ext4mj_es_set_referenced es) = ext4mj_es_is_hole es) ∧
    (ext4mj_es_pblock (ext4mj_es_clear_referenced es) = ext4mj_es_pblock es ∧
      ext4mj_es_type (ext4mj_es_clear_referenced es) = ext4mj_es_type es ∧
      ext4mj_es_is_written (ext4mj_es_clear_referenced es) = ext4mj_es_is_written es ∧
      ext4mj_es_is_unwritten (ext4mj_es_clear_referenced es) = ext4mj_es_is_unwritten es ∧
      ext4mj_es_is_delayed (ext4mj_es_clear_referenced es) = ext4mj_es_is_delayed es ∧
      ext4mj_es_is_hole (ext4mj_es_clear_referenced es) = ext4mj_es_is_hole es) := by
  refine ⟨⟨?_, ?_, ?_, ?_, ?_, ?_⟩, ⟨?_, ?_, ?_, ?_, ?_, ?_⟩⟩
  · rw [pblock_eq, pblock_eq]
    apply Nat.eq_of_testBit_eq
    intro i
    rw [Nat.testBit_mod_two_pow, Nat.testBit_mod_two_pow, testBit_set_referenced]
    by_cases hi : i < 59
    · have h1 : ¬ i = 63 := by omega
      simp [hi, h1]
    · simp [hi]
  · apply Nat.eq_of_testBit_eq
    intro i
    rw [testBit_type, testBit_type, testBit_set_referenced]
    by_cases hi : i < 4
    · have h1 : ¬ 59 + i = 63 := by omega
      simp [hi, h1]
    · simp [hi]
  · rw [is_written_eq, is_written_eq, testBit_set_referenced]; simp
  · rw [is_unwritten_eq, is_unwritten_eq, testBit_set_referenced]; simp
  · rw [is_delayed_eq, is_delayed_eq, testBit_set_referenced]; simp
  · rw [is_hole_eq, is_hole_eq, testBit_set_referenced]; simp
  · rw [pblock_eq, pblock_eq]
    apply Nat.eq_of_testBit_eq
    intro i
    rw [Nat.testBit_mod_two_pow, Nat.testBit_mod_two_pow, testBit_clear_referenced]
    by_cases hi : i < 59
    · have h1 : i < 63 := by omega
      simp [hi, h1]
    · simp [hi]
  · apply Nat.eq_of_testBit_eq
    intro i
    rw [testBit_type, testBit_type, testBit_clear_referenced]
    by_cases hi : i < 4
    · have h1 : 59 + i < 63 := by omega
      simp [hi, h1]
    · simp [hi]
  · rw [is_written_eq, is_written_eq, testBit_clear_referenced]; simp
  · rw [is_unwritten_eq, is_unwritten_eq, testBit_clear_referenced]; simp
  · rw [is_delayed_eq, is_delayed_eq, testBit_clear_referenced]; simp
  · rw [is_hole_eq, is_hole_eq, testBit_clear_referenced]; simp

/-- C5: physical-address round trip. For `pb < 2^59`, `ext4mj_es_pblock`
returns exactly `pb` after `ext4mj_es_store_pblock(es, pb)` and after
`ext4mj_es_store_pblock_status(es, pb, s)` for every status `s`. -/
theorem C5_pblock_round_trip (es : extent_status) (pb : Nat) (hpb : pb < 2 ^ 59) :
    ext4mj_es_pblock (ext4mj_es_store_pblock es pb) = pb ∧
      ∀ s : Nat, ext4mj_es_pblock (ext4mj_es_store_pblock_status es pb s) = pb := by
  have hbit : ∀ i, ¬ i < 59 → pb.testBit i = false := by
    intro i hi
    apply Nat.testBit_lt_two_pow
    calc pb < 2 ^ 59 := hpb
      _ ≤ 2 ^ i := Nat.pow_le_pow_right (by decide) (by omega)
  constructor
  · rw [pblock_eq]
    apply Nat.eq_of_testBit_eq
    intro i
    rw [Nat.testBit_mod_two_pow, testBit_store_pblock]
    by_cases hi : i < 59
    · have h1 : ¬ 59 ≤ i := by omega
      simp [hi, h1]
    · simp [hi, hbit i hi]
  · intro s
    rw [pblock_eq]
    apply Nat.eq_of_testBit_eq
    intro i
    rw [Nat.testBit_mod_two_pow, testBit_store_pblock_status]
    by_cases hi : i < 59
    · have h1 : ¬ 59 ≤ i := by omega
      simp [hi, h1]
    · simp [hi, hbit i hi]

theorem C5_pblock_round_trip_witness :
    (2 ^ 59 - 1 < 2 ^ 59) ∧
      ext4mj_es_pblock (ext4mj_es_store_pblock ⟨7, 3, 2 ^ 64 - 1⟩ (2 ^ 59 - 1)) = 2 ^ 59 - 1 ∧
      ∀ s : Nat,
        ext4mj_es_pblock (ext4mj_es_store_pblock_status ⟨7, 3, 2 ^ 64 - 1⟩ (2 ^ 59 - 1) s) =
          2 ^ 59 - 1 :=
  ⟨by decide, C5_pblock_round_trip ⟨7, 3, 2 ^ 64 - 1⟩ (2 ^ 59 - 1) (by decide)⟩

/-- C6: construction from `(physical_start, status)`. For `s` one of the four
status values, after `ext4mj_es_store_pblock_status(es, pb, s)` exactly the
predicate matching `s` is non-zero, the referenced flag reads zero, the status
reads `s`, and the stored word does not depend on the previous record. -/
theorem C6_store_pblock_status_constructs (es : extent_status) (pb s : Nat)
    (hs : s = EXTENT_STATUS_WRITTEN ∨ s = EXTENT_STATUS_UNWRITTEN ∨
      s = EXTENT_STATUS_DELAYED ∨ s = EXTENT_STATUS_HOLE) :
    (ext4mj_es_is_written (ext4mj_es_store_pblock_status es pb s) ≠ 0 ↔
        s = EXTENT_STATUS_WRITTEN) ∧
      (ext4mj_es_is_unwritten (ext4mj_es_store_pblock_status es pb s) ≠ 0 ↔
        s = EXTENT_STATUS_UNWRITTEN) ∧
      (ext4mj_es_is_delayed (ext4mj_es_store_pblock_status es pb s) ≠ 0 ↔
        s = EXTENT_STATUS_DELAYED) ∧
      (ext4mj_es_is_hole (ext4mj_es_store_pblock_status es pb s) ≠ 0 ↔
        s = EXTENT_STATUS_HOLE) ∧
      ext4mj_es_is_referenced (ext4mj_es_store_pblock_status es pb s) = 0 ∧
      ext4mj_es_status (ext4mj_es_store_pblock_status es pb s) = s ∧
      ∀ es2 : extent_status,
        (ext4mj_es_store_pblock_status es2 pb s).es_pblk =
          (ext4mj_es_store_pblock_status es pb s).es_pblk := by
  have hb : s.testBit 0 = decide (s = EXTENT_STATUS_WRITTEN) ∧
      s.testBit 1 = decide (s = EXTENT_STATUS_UNWRITTEN) ∧
      s.testBit 2 = decide (s = EXTENT_STATUS_DELAYED) ∧
      s.testBit 3 = decide (s = EXTENT_STATUS_HOLE) ∧ s.testBit 4 = false := by
    rcases hs with rfl | rfl | rfl | rfl <;> decide
  obtain ⟨h0, h1, h2, h3, h4⟩ := hb
  refine ⟨?_, ?_, ?_, ?_, ?_, ?_, ?_⟩
  · rw [is_written_eq, testBit_store_pblock_status]; simp [h0]
  · rw [is_unwritten_eq, testBit_store_pblock_status]; simp [h1]
  · rw [is_delayed_eq, testBit_store_pblock_status]; simp [h2]
  · rw [is_hole_eq, testBit_store_pblock_status]; simp [h3]
  · rw [is_referenced_eq, testBit_store_pblock_status]; simp [h4]
  · rw [status_store_pblock_status]
    rcases hs with rfl | rfl | rfl | rfl <;> decide
  · intro es2
    rfl

theorem C6_store_pblock_status_constructs_witness :
    (EXTENT_STATUS_DELAYED = EXTENT_STATUS_WRITTEN ∨
      EXTENT_STATUS_DELAYED = EXTENT_STATUS_UNWRITTEN ∨
      EXTENT_STATUS_DELAYED = EXTENT_STATUS_DELAYED ∨
      EXTENT_STATUS_DELAYED = EXTENT_STATUS_HOLE) ∧
    (ext4mj_es_is_written
          (ext4mj_es_store_pblock_status ⟨0, 10, 2 ^ 64 - 1⟩ 1000 EXTENT_STATUS_DELAYED) ≠ 0 ↔
        EXTENT_STATUS_DELAYED = EXTENT_STATUS_WRITTEN) ∧
      (ext4mj_es_is_unwritten
          (ext4mj_es_store_pblock_status ⟨0, 10, 2 ^ 64 - 1⟩ 1000 EXTENT_STATUS_DELAYED) ≠ 0 ↔
        EXTENT_STATUS_DELAYED = EXTENT_STATUS_UNWRITTEN) ∧
      (ext4mj_es_is_delayed
          (ext4mj_es_store_pblock_status ⟨0, 10, 2 ^ 64 - 1⟩ 1000 EXTENT_STATUS_DELAYED) ≠ 0 ↔
        EXTENT_STATUS_DELAYED = EXTENT_STATUS_DELAYED) ∧
      (ext4mj_es_is_hole
          (ext4mj_es_store_pblock_status ⟨0, 10, 2 ^ 64 - 1⟩ 1000 EXTENT_STATUS_DELAYED) ≠ 0 ↔
        EXTENT_STATUS_DELAYED = EXTENT_STATUS_HOLE) ∧
      ext4mj_es_is_referenced
          (ext4mj_es_store_pblock_status ⟨0, 10, 2 ^ 64 - 1⟩ 1000 EXTENT_STATUS_DELAYED) = 0 ∧
      ext4mj_es_status
          (ext4mj_es_store_pblock_status ⟨0, 10, 2 ^ 64 - 1⟩ 1000 EXTENT_STATUS_DELAYED) =
        EXTENT_STATUS_DELAYED ∧
      ∀ es2 : extent_status,
        (ext4mj_es_store_pblock_status es2 1000 EXTENT_STATUS_DELAYED).es_pblk =
          (ext4mj_es_store_pblock_status ⟨0, 10, 2 ^ 64 - 1⟩ 1000
            EXTENT_STATUS_DELAYED).es_pblk :=
  ⟨Or.inr (Or.inr (Or.inl rfl)),
    C6_store_pblock_status_constructs ⟨0, 10, 2 ^ 64 - 1⟩ 1000 EXTENT_STATUS_DELAYED
      (Or.inr (Or.inr (Or.inl rfl)))⟩

/-- C7: `ext4mj_es_is_referenced` returns non-zero after
`ext4mj_es_set_referenced` and zero after `ext4mj_es_clear_referenced`, for
every record. -/
theorem C7_referenced_set_then_clear (es : extent_status) :
    ext4mj_es_is_referenced (ext4mj_es_set_referenced es) ≠ 0 ∧
      ext4mj_es_is_referenced (ext4mj_es_clear_referenced es) = 0 := by
  constructor
  · rw [is_referenced_eq, testBit_set_referenced]; simp
  · rw [is_referenced_eq, testBit_clear_referenced]; simp

/-- C8 (as stated, refuted): a record whose `es_pblk` is zero has none of the
four status predicates non-zero, and a record with bits 59 and 60 both set has
two of them non-zero. -/
theorem C8_status_not_exclusive :
    (ext4mj_es_is_written ⟨0, 1, 0⟩ = 0 ∧ ext4mj_es_is_unwritten ⟨0, 1, 0⟩ = 0 ∧
      ext4mj_es_is_delayed ⟨0, 1, 0⟩ = 0 ∧ ext4mj_es_is_hole ⟨0, 1, 0⟩ = 0) ∧
    (ext4mj_es_is_written ⟨0, 1, 2 ^ 59 + 2 ^ 60⟩ ≠ 0 ∧
      ext4mj_es_is_unwritten ⟨0, 1, 2 ^ 59 + 2 ^ 60⟩ ≠ 0) := by
  decide

/-- C8 (amended): exactly one of the four status predicates is non-zero if
and only if the type field holds exactly one of the four status values. -/
theorem C8_exactly_one_iff_single_type (es : extent_status) :
    ((ext4mj_es_is_written es ≠ 0 ∧ ext4mj_es_is_unwritten es = 0 ∧
          ext4mj_es_is_delayed es = 0 ∧ ext4mj_es_is_hole es = 0) ∨
        (ext4mj_es_is_written es = 0 ∧ ext4mj_es_is_unwritten es ≠ 0 ∧
          ext4mj_es_is_delayed es = 0 ∧ ext4mj_es_is_hole es = 0) ∨
        (ext4mj_es_is_written es = 0 ∧ ext4mj_es_is_unwritten es = 0 ∧
          ext4mj_es_is_delayed es ≠ 0 ∧ ext4mj_es_is_hole es = 0) ∨
        (ext4mj_es_is_written es = 0 ∧ ext4mj_es_is_unwritten es = 0 ∧
          ext4mj_es_is_delayed es = 0 ∧ ext4mj_es_is_hole es ≠ 0)) ↔
      (ext4mj_es_type es = EXTENT_STATUS_WRITTEN ∨
        ext4mj_es_type es = EXTENT_STATUS_UNWRITTEN ∨
        ext4mj_es_type es = EXTENT_STATUS_DELAYED ∨
        ext4mj_es_type es = EXTENT_STATUS_HOLE) := by
  have hlt : ext4mj_es_type es < 2 ^ 4 := by
    apply Nat.lt_pow_two_of_testBit
    intro i hi
    rw [testBit_type]
    have h : ¬ i < 4 := by omega
    simp [h]
  unfold ext4mj_es_is_written ext4mj_es_is_unwritten ext4mj_es_is_delayed ext4mj_es_is_hole
  generalize ext4mj_es_type es = t at hlt
  have ht : t < 16 := hlt
  interval_cases t <;> decide

/-! ## The tree holds sorted, disjoint records -/

theorem es_right_part_lblk (es : extent_status) (end_ : Nat) :
    (es_right_part es end_).es_lblk = end_ := by
  unfold es_right_part
  split <;> rfl

theorem es_right_part_len (es : extent_status) (end_ : Nat) :
    (es_right_part es end_).es_len = es.es_lblk + es.es_len - end_ := by
  unfold es_right_part
  split <;> rfl

/-- Every record left by `es_remove_from_record` is a non-empty part of the
original record lying outside the removed range. -/
theorem es_remove_from_record_mem {alloc_ok : Bool} {lblk end_ : Nat} {es x : extent_status}
    (hlen : 0 < es.es_len) (hx : x ∈ es_remove_from_record alloc_ok lblk end_ es) :
    es.es_lblk ≤ x.es_lblk ∧ x.es_lblk + x.es_len ≤ es.es_lblk + es.es_len ∧
      0 < x.es_len ∧ (x.es_lblk + x.es_len ≤ lblk ∨ end_ ≤ x.es_lblk) := by
  unfold es_remove_from_record at hx
  split at hx
  · next h =>
    simp only [List.mem_singleton] at hx
    subst hx
    exact ⟨le_refl _, le_refl _, hlen, h⟩
  · next h =>
    simp only at hx
    split at hx
    · simp at hx
    · rw [List.mem_append] at hx
      rcases hx with hx | hx
      · split at hx
        · next hl =>
          simp only [List.mem_singleton] at hx
          subst hx
          simp only [decide_eq_true_eq] at hl
          simp only
          omega
        · simp at hx
      · split at hx
        · next hr =>
          simp only [List.mem_singleton] at hx
          subst hx
          simp only [decide_eq_true_eq] at hr
          rw [es_right_part_lblk, es_right_part_len]
          omega
        · simp at hx

/-- The records left from one record are themselves in order. -/
theorem es_remove_from_record_pairwise (alloc_ok : Bool) {lblk end_ : Nat} (hle : lblk ≤ end_)
    (es : extent_status) :
    (es_remove_from_record alloc_ok lblk end_ es).Pairwise
      (fun a b => a.es_lblk + a.es_len ≤ b.es_lblk) := by
  unfold es_remove_from_record
  split
  · simp
  · simp only
    split
    · simp
    · split <;> split <;> simp [es_right_part_lblk]
      omega

theorem es_remove_range_mem {alloc_ok : Bool} {lblk end_ : Nat} {x : extent_status} :
    ∀ {l : List extent_status}, x ∈ es_remove_range alloc_ok lblk end_ l →
      ∃ es ∈ l, x ∈ es_remove_from_record alloc_ok lblk end_ es
  | [], hx => by simp [es_remove_range] at hx
  | es :: rest, hx => by
    simp only [es_remove_range, List.mem_append] at hx
    rcases hx with hx | hx
    · exact ⟨es, List.mem_cons_self _ _, hx⟩
    · obtain ⟨r, hr, hxr⟩ := es_remove_range_mem hx
      exact ⟨r, List.mem_cons_of_mem _ hr, hxr⟩

/-- Removing a range keeps the records sorted and disjoint, and leaves none
that meets the range. -/
theorem es_remove_range_sorted (alloc_ok : Bool) {lblk end_ : Nat} (hle : lblk ≤ end_) :
    ∀ {l : List extent_status}, es_sorted_disjoint l →
      es_sorted_disjoint (es_remove_range alloc_ok lblk end_ l) ∧
        ∀ x ∈ es_remove_range alloc_ok lblk end_ l,
          x.es_lblk + x.es_len ≤ lblk ∨ end_ ≤ x.es_lblk := by
  intro l hl
  have hmem : ∀ x ∈ es_remove_range alloc_ok lblk end_ l,
      ∃ es ∈ l, es.es_lblk ≤ x.es_lblk ∧ x.es_lblk + x.es_len ≤ es.es_lblk + es.es_len ∧
        0 < x.es_len ∧ (x.es_lblk + x.es_len ≤ lblk ∨ end_ ≤ x.es_lblk) := by
    intro x hx
    obtain ⟨es, hes, hxe⟩ := es_remove_range_mem hx
    exact ⟨es, hes, es_remove_from_record_mem (hl.2 es hes) hxe⟩
  refine ⟨⟨?_, ?_⟩, ?_⟩
  · clear hmem
    induction l with
    | nil => simp [es_remove_range]
    | cons es rest ih =>
      obtain ⟨hpw, hpos⟩ := hl
      rw [List.pairwise_cons] at hpw
      have hrest : es_sorted_disjoint rest :=
        ⟨hpw.2, fun a ha => hpos a (List.mem_cons_of_mem _ ha)⟩
      simp only [es_remove_range]
      rw [List.pairwise_append]
      refine ⟨es_remove_from_record_pairwise alloc_ok hle es, ih hrest, ?_⟩
      intro a ha b hb
      have h1 := es_remove_from_record_mem (hpos es (List.mem_cons_self _ _)) ha
      obtain ⟨r, hr, hbr⟩ := es_remove_range_mem hb
      have h2 := es_remove_from_record_mem (hpos r (List.mem_cons_of_mem _ hr)) hbr
      have h3 := hpw.1 r hr
      omega
  · intro x hx
    obtain ⟨es, _, h⟩ := hmem x hx
    exact h.2.2.1
  · intro x hx
    obtain ⟨es, _, h⟩ := hmem x hx
    exact h.2.2.2

theorem es_can_be_merged_lblk {es1 es2 : extent_status} (h : es_can_be_merged es1 es2 = true) :
    es1.es_lblk + es1.es_len = es2.es_lblk := by
  unfold es_can_be_merged at h
  simp only [decide_eq_true_eq] at h
  exact h.2.1

/-- Lower bound on the keys after placing a record. -/
theorem es_insert_merge_lower (B : Nat) :
    ∀ (l : List extent_status) (newes : extent_status), B ≤ newes.es_lblk →
      (∀ r ∈ l, B ≤ r.es_lblk) → ∀ y ∈ es_insert_merge newes l, B ≤ y.es_lblk
  | [], newes, hn, _, y, hy => by
    simp only [es_insert_merge, List.mem_singleton] at hy
    subst hy
    exact hn
  | es :: rest, newes, hn, hl, y, hy => by
    have hes : B ≤ es.es_lblk := hl es (List.mem_cons_self _ _)
    have hrest : ∀ r ∈ rest, B ≤ r.es_lblk := fun r hr => hl r (List.mem_cons_of_mem _ hr)
    simp only [es_insert_merge] at hy
    split at hy
    · split at hy
      · rcases List.mem_cons.1 hy with h | h
        · subst h; exact hn
        · exact hrest y h
      · rcases List.mem_cons.1 hy with h | h
        · subst h; exact hn
        · exact hl y h
    · split at hy
      · exact es_insert_merge_lower B rest (es_merge es newes) hes hrest y hy
      · rcases List.mem_cons.1 hy with h | h
        · subst h; exact hes
        · exact es_insert_merge_lower B rest newes hn hrest y h

/-- Placing a non-empty record among sorted, disjoint records it does not
overlap keeps them sorted and disjoint. -/
theorem es_insert_merge_sorted :
    ∀ (l : List extent_status) (newes : extent_status), 0 < newes.es_len →
      es_sorted_disjoint l →
      (∀ x ∈ l, x.es_lblk + x.es_len ≤ newes.es_lblk ∨
        newes.es_lblk + newes.es_len ≤ x.es_lblk) →
      es_sorted_disjoint (es_insert_merge newes l)
  | [], newes, hn, _, _ => by
    simp only [es_insert_merge]
    exact ⟨List.pairwise_singleton _ _, fun a ha => by
      rw [List.mem_singleton] at ha; subst ha; exact hn⟩
  | es :: rest, newes, hn, hl, hd => by
    obtain ⟨hpw, hpos⟩ := hl
    rw [List.pairwise_cons] at hpw
    have hes_pos : 0 < es.es_len := hpos es (List.mem_cons_self _ _)
    have hrest : es_sorted_disjoint rest :=
      ⟨hpw.2, fun a ha => hpos a (List.mem_cons_of_mem _ ha)⟩
    have hdes := hd es (List.mem_cons_self _ _)
    simp only [es_insert_merge]
    split
    · next hlt =>
      split
      · next hm =>
        have hc := es_can_be_merged_lblk hm
        refine ⟨?_, ?_⟩
        · rw [List.pairwise_cons]
          refine ⟨fun r hr => ?_, hpw.2⟩
          have := hpw.1 r hr
          simp only [es_merge]
          omega
        · intro a ha
          rcases List.mem_cons.1 ha with h | h
          · subst h; simp only [es_merge]; omega
          · exact hrest.2 a h
      · refine ⟨?_, ?_⟩
        · rw [List.pairwise_cons, List.pairwise_cons]
          refine ⟨fun r hr => ?_, hpw.1, hpw.2⟩
          rcases List.mem_cons.1 hr with h | h
          · subst h; omega
          · have := hpw.1 r h
            omega
        · intro a ha
          rcases List.mem_cons.1 ha with h | h
          · subst h; exact hn
          · exact hpos a h
    · next hge =>
      split
      · next hm =>
        have hc := es_can_be_merged_lblk hm
        apply es_insert_merge_sorted rest (es_merge es newes) _ hrest
        · intro x hx
          have h1 := hpw.1 x hx
          have h2 := hd x (List.mem_cons_of_mem _ hx)
          have h3 := hrest.2 x hx
          simp only [es_merge]
          omega
        · simp only [es_merge]; omega
      · have ih := es_insert_merge_sorted rest newes hn hrest
          (fun x hx => hd x (List.mem_cons_of_mem _ hx))
        refine ⟨?_, ?_⟩
        · rw [List.pairwise_cons]
          refine ⟨?_, ih.1⟩
          apply es_insert_merge_lower (es.es_lblk + es.es_len) rest newes
          · omega
          · exact hpw.1
        · intro a ha
          rcases List.mem_cons.1 ha with h | h
          · subst h; exact hes_pos
          · exact ih.2 a h

/-- Insert keeps the tree sorted and disjoint. -/
theorem insert_extent_sorted (alloc_ok : Bool) (tree : ext4mj_es_tree)
    (lblk len pblk status : Nat) (h : es_sorted_disjoint tree.root) :
    es_sorted_disjoint (ext4mj_es_insert_extent alloc_ok tree lblk len pblk status).2.root := by
  unfold ext4mj_es_insert_extent
  split
  · exact h
  · next hlen =>
    split
    · exact h
    · simp only
      have hr := es_remove_range_sorted true (Nat.le_add_right lblk len) h
      apply es_insert_merge_sorted _ _ _ hr.1
      · intro x hx
        exact hr.2 x hx
      · show 0 < len
        omega

/-- Remove keeps the tree sorted and disjoint. -/
theorem remove_extent_sorted (alloc_ok : Bool) (tree : ext4mj_es_tree) (lblk len : Nat)
    (h : es_sorted_disjoint tree.root) :
    es_sorted_disjoint (ext4mj_es_remove_extent alloc_ok tree lblk len).2.root := by
  unfold ext4mj_es_remove_extent
  split
  · exact h
  · simp only
    have hr := es_remove_range_sorted alloc_ok (Nat.le_add_right lblk len) h
    split <;> exact hr.1

theorem reachable_sorted {tree : ext4mj_es_tree} (h : Reachable tree) :
    es_sorted_disjoint tree.root := by
  induction h with
  | init => exact ⟨List.Pairwise.nil, fun a ha => by simp [ext4mj_es_init_tree] at ha⟩
  | insert alloc_ok tree lblk len pblk status _ _ ih =>
    exact insert_extent_sorted alloc_ok tree lblk len pblk status ih
  | remove alloc_ok tree lblk len _ _ ih =>
    exact remove_extent_sorted alloc_ok tree lblk len ih

theorem pblock_set_referenced (es : extent_status) :
    ext4mj_es_pblock (ext4mj_es_set_referenced es) = ext4mj_es_pblock es := by
  rw [pblock_eq, pblock_eq]
  apply Nat.eq_of_testBit_eq
  intro i
  rw [Nat.testBit_mod_two_pow, Nat.testBit_mod_two_pow, testBit_set_referenced]
  by_cases hi : i < 59
  · have h1 : ¬ i = 63 := by omega
    simp [hi, h1]
  · simp [hi]

theorem pblock_store_pblock_status (es : extent_status) (pb s : Nat) :
    ext4mj_es_pblock (ext4mj_es_store_pblock_status es pb s) = pb % 2 ^ 59 := by
  rw [pblock_eq]
  apply Nat.eq_of_testBit_eq
  intro i
  rw [Nat.testBit_mod_two_pow, Nat.testBit_mod_two_pow, testBit_store_pblock_status]
  by_cases hi : i < 59
  · have h1 : ¬ 59 ≤ i := by omega
    simp [hi, h1]
  · simp [hi]

/-- C9: in every tree reachable from the empty tree by insert and remove calls
with `len > 0`, no two records overlap: records at different positions of the
tree are non-empty and have disjoint ranges `[es_lblk, es_lblk + es_len)`. -/
theorem C9_reachable_tree_non_overlap (tree : ext4mj_es_tree) (h : Reachable tree)
    (i j : Nat) (a b : extent_status) (ha : tree.root[i]? = some a)
    (hb : tree.root[j]? = some b) (hij : i ≠ j) :
    (0 < a.es_len ∧ 0 < b.es_len) ∧
      (a.es_lblk + a.es_len ≤ b.es_lblk ∨ b.es_lblk + b.es_len ≤ a.es_lblk) := by
  obtain ⟨hs, hpos⟩ := reachable_sorted h
  rw [List.pairwise_iff_getElem] at hs
  obtain ⟨hi, rfl⟩ := List.getElem?_eq_some.1 ha
  obtain ⟨hj, rfl⟩ := List.getElem?_eq_some.1 hb
  refine ⟨⟨hpos _ (List.getElem_mem _), hpos _ (List.getElem_mem _)⟩, ?_⟩
  rcases Nat.lt_or_gt_of_ne hij with hlt | hgt
  · exact Or.inl (hs i j hi hj hlt)
  · exact Or.inr (hs j i hj hi hgt)

theorem C9_reachable_tree_non_overlap_witness :
    Reachable
        (ext4mj_es_remove_extent true
          (ext4mj_es_insert_extent true ext4mj_es_init_tree 0 10 1000
            EXTENT_STATUS_WRITTEN).2 3 4).2 ∧
      (ext4mj_es_remove_extent true
          (ext4mj_es_insert_extent true ext4mj_es_init_tree 0 10 1000
            EXTENT_STATUS_WRITTEN).2 3 4).2.root[0]? = some ⟨0, 3, 2 ^ 59 + 1000⟩ ∧
      (ext4mj_es_remove_extent true
          (ext4mj_es_insert_extent true ext4mj_es_init_tree 0 10 1000
            EXTENT_STATUS_WRITTEN).2 3 4).2.root[1]? = some ⟨7, 3, 2 ^ 59 + 1007⟩ ∧
      ((0 < 3 ∧ 0 < 3) ∧ (0 + 3 ≤ 7 ∨ 7 + 3 ≤ 0)) :=
  ⟨Reachable.remove true _ 3 4
      (Reachable.insert true _ 0 10 1000 EXTENT_STATUS_WRITTEN Reachable.init (by decide))
      (by decide),
    by decide, by decide,
    C9_reachable_tree_non_overlap _
      (Reachable.remove true _ 3 4
        (Reachable.insert true _ 0 10 1000 EXTENT_STATUS_WRITTEN Reachable.init (by decide))
        (by decide))
      0 1 ⟨0, 3, 2 ^ 59 + 1000⟩ ⟨7, 3, 2 ^ 59 + 1007⟩ (by decide) (by decide) (by decide)⟩

theorem store_pblock_status_lblk (es : extent_status) (pb s : Nat) :
    (ext4mj_es_store_pblock_status es pb s).es_lblk = es.es_lblk := rfl

theorem store_pblock_status_len (es : extent_status) (pb s : Nat) :
    (ext4mj_es_store_pblock_status es pb s).es_len = es.es_len := rfl

theorem set_referenced_lblk (es : extent_status) :
    (ext4mj_es_set_referenced es).es_lblk = es.es_lblk := rfl

theorem set_referenced_len (es : extent_status) :
    (ext4mj_es_set_referenced es).es_len = es.es_len := rfl

/-- C10: insert/lookup round trip. When inserting `[0, 10)` as written with
physical base `P < 2^59` into the empty tree succeeds, a lookup of any block
`b` in `0..9` finds a record that is written, whose range contains `b`, and
whose logical and physical starts map `b` to physical block `P + b`. -/
theorem C10_insert_lookup_round_trip (alloc_ok : Bool) (P b : Nat) (hP : P < 2 ^ 59)
    (hb : b < 10)
    (hok : (ext4mj_es_insert_extent alloc_ok ext4mj_es_init_tree 0 10 P
      EXTENT_STATUS_WRITTEN).1 = 0) :
    ∃ es : extent_status,
      (ext4mj_es_lookup_extent
          (ext4mj_es_insert_extent alloc_ok ext4mj_es_init_tree 0 10 P
            EXTENT_STATUS_WRITTEN).2 b).1 = some es ∧
        ext4mj_es_is_written es ≠ 0 ∧
        es.es_lblk ≤ b ∧ b < es.es_lblk + es.es_len ∧
        ext4mj_es_pblock es + (b - es.es_lblk) = P + b := by
  cases alloc_ok with
  | false =>
    have hfail : (ext4mj_es_insert_extent false ext4mj_es_init_tree 0 10 P
        EXTENT_STATUS_WRITTEN).1 = -ENOMEM := rfl
    rw [hfail] at hok
    exact absurd hok (by decide)
  | true =>
    refine ⟨ext4mj_es_set_referenced
      (ext4mj_es_store_pblock_status ⟨0, 10, 0⟩ P EXTENT_STATUS_WRITTEN), ?_, ?_, ?_, ?_, ?_⟩
    · simp [ext4mj_es_insert_extent, ext4mj_es_init_tree, es_remove_range, es_insert_merge,
        es_revalidate_cache, ext4mj_es_lookup_extent, es_covers, store_pblock_status_lblk,
        store_pblock_status_len, hb]
    · rw [is_written_eq, testBit_set_referenced, testBit_store_pblock_status]
      have hw : EXTENT_STATUS_WRITTEN.testBit (59 - 59) = true := by decide
      rw [hw]
      simp
    · simp [set_referenced_lblk, store_pblock_status_lblk]
    · simp [set_referenced_lblk, store_pblock_status_lblk, set_referenced_len,
        store_pblock_status_len, hb]
    · rw [pblock_set_referenced, pblock_store_pblock_status, Nat.mod_eq_of_lt hP,
        set_referenced_lblk, store_pblock_status_lblk]
      show P + (b - 0) = P + b
      omega

theorem C10_insert_lookup_round_trip_witness :
    (12345 < 2 ^ 59 ∧ 7 < 10 ∧
      (ext4mj_es_insert_extent true ext4mj_es_init_tree 0 10 12345
        EXTENT_STATUS_WRITTEN).1 = 0) ∧
    ∃ es : extent_status,
      (ext4mj_es_lookup_extent
          (ext4mj_es_insert_extent true ext4mj_es_init_tree 0 10 12345
            EXTENT_STATUS_WRITTEN).2 7).1 = some es ∧
        ext4mj_es_is_written es ≠ 0 ∧
        es.es_lblk ≤ 7 ∧ 7 < es.es_lblk + es.es_len ∧
        ext4mj_es_pblock es + (7 - es.es_lblk) = 12345 + 7 :=
  ⟨⟨by decide, by decide, by decide⟩,
    C10_insert_lookup_round_trip true 12345 7 (by decide) (by decide) (by decide)⟩

theorem type_store_status (es : extent_status) (s : Nat) :
    ext4mj_es_type (ext4mj_es_store_status es s) = s % 2 ^ 4 := by
  apply Nat.eq_of_testBit_eq
  intro i
  rw [testBit_type, testBit_store_status, Nat.testBit_mod_two_pow]
  have e : 59 + i - 59 = i := by omega
  rw [e]
  by_cases h : i < 4
  · have h2 : 59 + i < 64 := by omega
    simp [h, h2]
  · simp [h]

theorem type_store_pblock_status (es : extent_status) (pb s : Nat) :
    ext4mj_es_type (ext4mj_es_store_pblock_status es pb s) = s % 2 ^ 4 := by
  apply Nat.eq_of_testBit_eq
  intro i
  rw [testBit_type, testBit_store_pblock_status, Nat.testBit_mod_two_pow]
  have e : 59 + i - 59 = i := by omega
  rw [e]
  by_cases h : i < 4
  · have h2 : 59 + i < 64 := by omega
    simp [h, h2]
  · simp [h]

theorem pblock_store_pblock (es : extent_status) (pb : Nat) :
    ext4mj_es_pblock (ext4mj_es_store_pblock es pb) = pb % 2 ^ 59 := by
  rw [pblock_eq]
  apply Nat.eq_of_testBit_eq
  intro i
  rw [Nat.testBit_mod_two_pow, Nat.testBit_mod_two_pow, testBit_store_pblock]
  by_cases hi : i < 59
  · have h1 : ¬ 59 ≤ i := by omega
    simp [hi, h1]
  · simp [hi]

/-- C11: the physical address never uses the reserved high bits:
`ext4mj_es_pblock(es) < 2^59` for every record, and after
`ext4mj_es_store_pblock(es, pb)` the getter returns `pb mod 2^59` for every
`pb`; the address bits above bit 58 are dropped, the type and the referenced
flag read as before. -/
theorem C11_pblock_never_uses_reserved_bits (es : extent_status) :
    ext4mj_es_pblock es < 2 ^ 59 ∧
      ∀ pb : Nat,
        ext4mj_es_pblock (ext4mj_es_store_pblock es pb) = pb % 2 ^ 59 ∧
          ext4mj_es_type (ext4mj_es_store_pblock es pb) = ext4mj_es_type es ∧
          ext4mj_es_is_referenced (ext4mj_es_store_pblock es pb) =
            ext4mj_es_is_referenced es := by
  refine ⟨?_, fun pb => ⟨pblock_store_pblock es pb, ?_, ?_⟩⟩
  · rw [pblock_eq]
    exact Nat.mod_lt _ (by decide)
  · apply Nat.eq_of_testBit_eq
    intro i
    rw [testBit_type, testBit_type, testBit_store_pblock]
    by_cases hi : i < 4
    · have h1 : ¬ 59 + i < 59 := by omega
      have h2 : 59 + i < 64 := by omega
      simp [hi, h1, h2]
    · simp [hi]
  · rw [is_referenced_eq, is_referenced_eq, testBit_store_pblock]; simp

/-- C12: the getters are pure and the setters touch only `es_pblk`. A call of
`ext4mj_es_status`, `ext4mj_es_type`, one of the four `is_*` status
predicates, `ext4mj_es_is_referenced` or `ext4mj_es_pblock` leaves the record
unchanged and returns a value fixed by the record, which does not depend on
`es_lblk` or `es_len`. Every setter leaves `es_lblk` and `es_len` as they
were, for every record and argument. -/
theorem C12_getters_pure_setters_touch_only_es_pblk (es : extent_status) :
    ((ext4mj_es_status_call es).2 = es ∧ (ext4mj_es_type_call es).2 = es ∧
      (ext4mj_es_is_written_call es).2 = es ∧ (ext4mj_es_is_unwritten_call es).2 = es ∧
      (ext4mj_es_is_delayed_call es).2 = es ∧ (ext4mj_es_is_hole_call es).2 = es ∧
      (ext4mj_es_is_referenced_call es).2 = es ∧ (ext4mj_es_pblock_call es).2 = es) ∧
    ((ext4mj_es_status_call es).1 = ext4mj_es_status es ∧
      (ext4mj_es_type_call es).1 = ext4mj_es_type es ∧
      (ext4mj_es_is_written_call es).1 = ext4mj_es_is_written es ∧
      (ext4mj_es_is_unwritten_call es).1 = ext4mj_es_is_unwritten es ∧
      (ext4mj_es_is_delayed_call es).1 = ext4mj_es_is_delayed es ∧
      (ext4mj_es_is_hole_call es).1 = ext4mj_es_is_hole es ∧
      (ext4mj_es_is_referenced_call es).1 = ext4mj_es_is_referenced es ∧
      (ext4mj_es_pblock_call es).1 = ext4mj_es_pblock es) ∧
    (((ext4mj_es_set_referenced es).es_lblk = es.es_lblk ∧
        (ext4mj_es_set_referenced es).es_len = es.es_len) ∧
      ((ext4mj_es_clear_referenced es).es_lblk = es.es_lblk ∧
        (ext4mj_es_clear_referenced es).es_len = es.es_len) ∧
      (∀ pb : Nat, (ext4mj_es_store_pblock es pb).es_lblk = es.es_lblk ∧
        (ext4mj_es_store_pblock es pb).es_len = es.es_len) ∧
      (∀ s : Nat, (ext4mj_es_store_status es s).es_lblk = es.es_lblk ∧
        (ext4mj_es_store_status es s).es_len = es.es_len) ∧
      (∀ pb s : Nat, (ext4mj_es_store_pblock_status es pb s).es_lblk = es.es_lblk ∧
        (ext4mj_es_store_pblock_status es pb s).es_len = es.es_len)) ∧
    ∀ lblk len : Nat,
      ext4mj_es_status ⟨lblk, len, es.es_pblk⟩ = ext4mj_es_status es ∧
        ext4mj_es_type ⟨lblk, len, es.es_pblk⟩ = ext4mj_es_type es ∧
        ext4mj_es_is_written ⟨lblk, len, es.es_pblk⟩ = ext4mj_es_is_written es ∧
        ext4mj_es_is_unwritten ⟨lblk, len, es.es_pblk⟩ = ext4mj_es_is_unwritten es ∧
        ext4mj_es_is_delayed ⟨lblk, len, es.es_pblk⟩ = ext4mj_es_is_delayed es ∧
        ext4mj_es_is_hole ⟨lblk, len, es.es_pblk⟩ = ext4mj_es_is_hole es ∧
        ext4mj_es_is_referenced ⟨lblk, len, es.es_pblk⟩ = ext4mj_es_is_referenced es ∧
        ext4mj_es_pblock ⟨lblk, len, es.es_pblk⟩ = ext4mj_es_pblock es := by
  refine ⟨⟨rfl, rfl, rfl, rfl, rfl, rfl, rfl, rfl⟩, ⟨rfl, rfl, rfl, rfl, rfl, rfl, rfl, rfl⟩,
    ⟨⟨rfl, rfl⟩, ⟨rfl, rfl⟩, fun _ => ⟨rfl, rfl⟩, fun _ => ⟨rfl, rfl⟩,
      fun _ _ => ⟨rfl, rfl⟩⟩,
    fun lblk len => ⟨rfl, rfl, rfl, rfl, rfl, rfl, rfl, rfl⟩⟩

/-- C13: status truncation. After `ext4mj_es_store_status(es, s)`, and after
`ext4mj_es_store_pblock_status(es, pb, s)` for every `pb`, the status reads
`s mod 32` and the type reads `s mod 16`; the status reads `s` exactly when
`s < 32`. -/
theorem C13_status_truncation (es : extent_status) (s : Nat) :
    (ext4mj_es_status (ext4mj_es_store_status es s) = s % 32 ∧
      ext4mj_es_type (ext4mj_es_store_status es s) = s % 16 ∧
      (ext4mj_es_status (ext4mj_es_store_status es s) = s ↔ s < 32)) ∧
    ∀ pb : Nat,
      ext4mj_es_status (ext4mj_es_store_pblock_status es pb s) = s % 32 ∧
        ext4mj_es_type (ext4mj_es_store_pblock_status es pb s) = s % 16 ∧
        (ext4mj_es_status (ext4mj_es_store_pblock_status es pb s) = s ↔ s < 32) := by
  have hiff : s % 32 = s ↔ s < 32 := by
    constructor
    · intro h; omega
    · intro h; exact Nat.mod_eq_of_lt h
  refine ⟨⟨?_, ?_, ?_⟩, fun pb => ⟨?_, ?_, ?_⟩⟩
  · exact status_store_status es s
  · exact type_store_status es s
  · rw [status_store_status]; exact hiff
  · exact status_store_pblock_status es pb s
  · exact type_store_pblock_status es pb s
  · rw [status_store_pblock_status]; exact hiff

/-- C14: the combined setter equals the two single-field setters composed in
either order: the `es_pblk` written by `ext4mj_es_store_pblock_status(es, pb, s)`
is the one left by `store_pblock` then `store_status`, and the one left by
`store_status` then `store_pblock`. -/
theorem C14_combined_setter_is_composition (es : extent_status) (pb s : Nat) :
    (ext4mj_es_store_pblock_status es pb s).es_pblk =
        (ext4mj_es_store_status (ext4mj_es_store_pblock es pb) s).es_pblk ∧
      (ext4mj_es_store_pblock_status es pb s).es_pblk =
        (ext4mj_es_store_pblock (ext4mj_es_store_status es s) pb).es_pblk := by
  constructor
  · apply Nat.eq_of_testBit_eq
    intro i
    rw [testBit_store_pblock_status, testBit_store_status, testBit_store_pblock]
    by_cases hi : i < 59
    · have h1 : ¬ 59 ≤ i := by omega
      simp [hi, h1]
    · simp [hi]
  · apply Nat.eq_of_testBit_eq
    intro i
    rw [testBit_store_pblock_status, testBit_store_pblock, testBit_store_status]
    by_cases hi : i < 59
    · have h1 : ¬ 59 ≤ i := by omega
      simp [hi, h1]
    · have h1 : 59 ≤ i := by omega
      by_cases h2 : i < 64 <;> simp [hi, h1, h2]

theorem status_eq_div {es : extent_status} (h : es.es_pblk < 2 ^ 64) :
    ext4mj_es_status es = es.es_pblk / 2 ^ 59 := by
  unfold ext4mj_es_status uint_cast UINT_MOD
  rw [ES_SHIFT_eq, Nat.shiftRight_eq_div_pow]
  apply Nat.mod_eq_of_lt
  have h1 : es.es_pblk / 2 ^ 59 < 2 ^ 5 := by
    apply Nat.div_lt_of_lt_mul
    calc es.es_pblk < 2 ^ 64 := h
      _ = 2 ^ 59 * 2 ^ 5 := by decide
  omega

/-- C15: lossless decomposition of a 64-bit packed word:
`es_pblk = ext4mj_es_status(es) * 2^59 + ext4mj_es_pblock(es)`, and storing
`ext4mj_es_pblock(es)` with `ext4mj_es_status(es)` into any record `es2` makes
its `es_pblk` equal to that of `es`. -/
theorem C15_lossless_decomposition (es es2 : extent_status) (h : es.es_pblk < 2 ^ 64) :
    es.es_pblk = ext4mj_es_status es * 2 ^ 59 + ext4mj_es_pblock es ∧
      (ext4mj_es_store_pblock_status es2 (ext4mj_es_pblock es) (ext4mj_es_status es)).es_pblk =
        es.es_pblk := by
  constructor
  · rw [status_eq_div h, pblock_eq]
    exact (Nat.div_add_mod' es.es_pblk (2 ^ 59)).symm
  · apply Nat.eq_of_testBit_eq
    intro i
    rw [testBit_store_pblock_status, testBit_status, pblock_eq, Nat.testBit_mod_two_pow]
    by_cases hi : i < 59
    · have h1 : ¬ 59 ≤ i := by omega
      simp [hi, h1]
    · have h1 : 59 ≤ i := by omega
      have e : 59 + (i - 59) = i := by omega
      by_cases h2 : i < 64
      · have h3 : i - 59 < 32 := by omega
        simp [hi, h1, h2, h3, e]
      · have h3 : es.es_pblk.testBit i = false := testBit_of_lt_fsblk h (by omega)
        simp [hi, h2, h3]

theorem C15_lossless_decomposition_witness :
    (2 ^ 63 + 2 ^ 60 + 12345 < 2 ^ 64) ∧
      ((⟨3, 4, 2 ^ 63 + 2 ^ 60 + 12345⟩ : extent_status).es_pblk =
          ext4mj_es_status ⟨3, 4, 2 ^ 63 + 2 ^ 60 + 12345⟩ * 2 ^ 59 +
            ext4mj_es_pblock ⟨3, 4, 2 ^ 63 + 2 ^ 60 + 12345⟩ ∧
        (ext4mj_es_store_pblock_status ⟨0, 1, 2 ^ 64 - 1⟩
            (ext4mj_es_pblock ⟨3, 4, 2 ^ 63 + 2 ^ 60 + 12345⟩)
            (ext4mj_es_status ⟨3, 4, 2 ^ 63 + 2 ^ 60 + 12345⟩)).es_pblk =
          (⟨3, 4, 2 ^ 63 + 2 ^ 60 + 12345⟩ : extent_status).es_pblk) :=
  ⟨by decide,
    C15_lossless_decomposition ⟨3, 4, 2 ^ 63 + 2 ^ 60 + 12345⟩ ⟨0, 1, 2 ^ 64 - 1⟩ (by decide)⟩

/-- C16: setter algebra on a 64-bit `es_pblk`. (1) `ext4mj_es_set_referenced`
and `ext4mj_es_clear_referenced` are idempotent and the later of a set/clear
pair wins; (2) `ext4mj_es_store_pblock` is last-write-wins; (3)
`ext4mj_es_store_pblock` commutes with both referenced setters. -/
theorem C16_setter_algebra (es : extent_status) (h : es.es_pblk < 2 ^ 64) :
    ((ext4mj_es_set_referenced (ext4mj_es_set_referenced es)).es_pblk =
        (ext4mj_es_set_referenced es).es_pblk ∧
      (ext4mj_es_clear_referenced (ext4mj_es_clear_referenced es)).es_pblk =
        (ext4mj_es_clear_referenced es).es_pblk ∧
      (ext4mj_es_clear_referenced (ext4mj_es_set_referenced es)).es_pblk =
        (ext4mj_es_clear_referenced es).es_pblk ∧
      (ext4mj_es_set_referenced (ext4mj_es_clear_referenced es)).es_pblk =
        (ext4mj_es_set_referenced es).es_pblk ∧
      ext4mj_es_is_referenced (ext4mj_es_clear_referenced (ext4mj_es_set_referenced es)) = 0 ∧
      ext4mj_es_is_referenced (ext4mj_es_set_referenced (ext4mj_es_clear_referenced es)) ≠ 0) ∧
    (∀ pb1 pb2 : Nat,
      (ext4mj_es_store_pblock (ext4mj_es_store_pblock es pb1) pb2).es_pblk =
        (ext4mj_es_store_pblock es pb2).es_pblk) ∧
    (∀ pb : Nat,
      (ext4mj_es_store_pblock (ext4mj_es_set_referenced es) pb).es_pblk =
          (ext4mj_es_set_referenced (ext4mj_es_store_pblock es pb)).es_pblk ∧
        (ext4mj_es_store_pblock (ext4mj_es_clear_referenced es) pb).es_pblk =
          (ext4mj_es_clear_referenced (ext4mj_es_store_pblock es pb)).es_pblk) := by
  refine ⟨⟨?_, ?_, ?_, ?_, ?_, ?_⟩, fun pb1 pb2 => ?_, fun pb => ⟨?_, ?_⟩⟩
  · apply Nat.eq_of_testBit_eq
    intro i
    rw [testBit_set_referenced, testBit_set_referenced]
    simp [Bool.or_assoc]
  · apply Nat.eq_of_testBit_eq
    intro i
    rw [testBit_clear_referenced, testBit_clear_referenced]
    simp [Bool.and_assoc]
  · apply Nat.eq_of_testBit_eq
    intro i
    rw [testBit_clear_referenced, testBit_set_referenced, testBit_clear_referenced]
    by_cases hi : i < 63
    · have h1 : ¬ i = 63 := by omega
      simp [hi, h1]
    · simp [hi]
  · apply Nat.eq_of_testBit_eq
    intro i
    rw [testBit_set_referenced, testBit_clear_referenced, testBit_set_referenced]
    by_cases hi : i < 63
    · simp [hi]
    · by_cases h1 : i = 63
      · simp [h1]
      · have h3 : es.es_pblk.testBit i = false := testBit_of_lt_fsblk h (by omega)
        simp [hi, h1, h3]
  · rw [is_referenced_eq, testBit_clear_referenced]; simp
  · rw [is_referenced_eq, testBit_set_referenced]; simp
  · apply Nat.eq_of_testBit_eq
    intro i
    rw [testBit_store_pblock, testBit_store_pblock, testBit_store_pblock]
    by_cases hi : i < 59
    · have h1 : ¬ 59 ≤ i := by omega
      simp [hi, h1]
    · have h1 : 59 ≤ i := by omega
      by_cases h2 : i < 64 <;> simp [hi, h1, h2]
  · apply Nat.eq_of_testBit_eq
    intro i
    rw [testBit_store_pblock, testBit_set_referenced, testBit_set_referenced,
      testBit_store_pblock]
    by_cases hi : i < 59
    · have h1 : ¬ 59 ≤ i := by omega
      have h2 : ¬ i = 63 := by omega
      simp [hi, h1, h2]
    · have h1 : 59 ≤ i := by omega
      by_cases h2 : i = 63
      · simp [h2]
      · by_cases h3 : i < 64 <;> simp [hi, h1, h2, h3]
  · apply Nat.eq_of_testBit_eq
    intro i
    rw [testBit_store_pblock, testBit_clear_referenced, testBit_clear_referenced,
      testBit_store_pblock]
    by_cases hi : i < 59
    · have h1 : ¬ 59 ≤ i := by omega
      have h2 : i < 63 := by omega
      simp [hi, h1, h2]
    · have h1 : 59 ≤ i := by omega
      by_cases h2 : i < 63
      · have h3 : i < 64 := by omega
        simp [hi, h1, h2, h3]
      · simp [hi, h2]

theorem C16_setter_algebra_witness :
    (2 ^ 63 + 2 ^ 61 + 77 < 2 ^ 64) ∧
    (((ext4mj_es_set_referenced (ext4mj_es_set_referenced ⟨1, 2, 2 ^ 63 + 2 ^ 61 + 77⟩)).es_pblk =
        (ext4mj_es_set_referenced ⟨1, 2, 2 ^ 63 + 2 ^ 61 + 77⟩).es_pblk ∧
      (ext4mj_es_clear_referenced
          (ext4mj_es_clear_referenced ⟨1, 2, 2 ^ 63 + 2 ^ 61 + 77⟩)).es_pblk =
        (ext4mj_es_clear_referenced ⟨1, 2, 2 ^ 63 + 2 ^ 61 + 77⟩).es_pblk ∧
      (ext4mj_es_clear_referenced
          (ext4mj_es_set_referenced ⟨1, 2, 2 ^ 63 + 2 ^ 61 + 77⟩)).es_pblk =
        (ext4mj_es_clear_referenced ⟨1, 2, 2 ^ 63 + 2 ^ 61 + 77⟩).es_pblk ∧
      (ext4mj_es_set_referenced
          (ext4mj_es_clear_referenced ⟨1, 2, 2 ^ 63 + 2 ^ 61 + 77⟩)).es_pblk =
        (ext4mj_es_set_referenced ⟨1, 2, 2 ^ 63 + 2 ^ 61 + 77⟩).es_pblk ∧
      ext4mj_es_is_referenced
          (ext4mj_es_clear_referenced
            (ext4mj_es_set_referenced ⟨1, 2, 2 ^ 63 + 2 ^ 61 + 77⟩)) = 0 ∧
      ext4mj_es_is_referenced
          (ext4mj_es_set_referenced
            (ext4mj_es_clear_referenced ⟨1, 2, 2 ^ 63 + 2 ^ 61 + 77⟩)) ≠ 0) ∧
    (∀ pb1 pb2 : Nat,
      (ext4mj_es_store_pblock
          (ext4mj_es_store_pblock ⟨1, 2, 2 ^ 63 + 2 ^ 61 + 77⟩ pb1) pb2).es_pblk =
        (ext4mj_es_store_pblock ⟨1, 2, 2 ^ 63 + 2 ^ 61 + 77⟩ pb2).es_pblk) ∧
    (∀ pb : Nat,
      (ext4mj_es_store_pblock
          (ext4mj_es_set_referenced ⟨1, 2, 2 ^ 63 + 2 ^ 61 + 77⟩) pb).es_pblk =
          (ext4mj_es_set_referenced
            (ext4mj_es_store_pblock ⟨1, 2, 2 ^ 63 + 2 ^ 61 + 77⟩ pb)).es_pblk ∧
        (ext4mj_es_store_pblock
          (ext4mj_es_clear_referenced ⟨1, 2, 2 ^ 63 + 2 ^ 61 + 77⟩) pb).es_pblk =
          (ext4mj_es_clear_referenced
            (ext4mj_es_store_pblock ⟨1, 2, 2 ^ 63 + 2 ^ 61 + 77⟩ pb)).es_pblk)) :=
  ⟨by decide, C16_setter_algebra ⟨1, 2, 2 ^ 63 + 2 ^ 61 + 77⟩ (by decide)⟩

/-- C17: bit layout with a 64-bit `ext4mj_fsblk_t`. `ES_SHIFT = 59`, `ES_MASK`
has exactly bits 59..63 set, `ES_TYPE_MASK` exactly bits 59..62; for every
record `is_written`, `is_unwritten`, `is_delayed`, `is_hole`, `is_referenced`
test bits 59, 60, 61, 62, 63 of `es_pblk`; the type is the status modulo 16
and is the same whether the referenced bit is set or cleared. -/
theorem C17_bit_layout :
    ES_SHIFT = 59 ∧
      (∀ i : Nat, ES_MASK.testBit i = true ↔ 59 ≤ i ∧ i ≤ 63) ∧
      (∀ i : Nat, ES_TYPE_MASK.testBit i = true ↔ 59 ≤ i ∧ i ≤ 62) ∧
      ∀ es : extent_status,
        (ext4mj_es_is_written es ≠ 0 ↔ es.es_pblk.testBit 59 = true) ∧
          (ext4mj_es_is_unwritten es ≠ 0 ↔ es.es_pblk.testBit 60 = true) ∧
          (ext4mj_es_is_delayed es ≠ 0 ↔ es.es_pblk.testBit 61 = true) ∧
          (ext4mj_es_is_hole es ≠ 0 ↔ es.es_pblk.testBit 62 = true) ∧
          (ext4mj_es_is_referenced es ≠ 0 ↔ es.es_pblk.testBit 63 = true) ∧
          ext4mj_es_type es = ext4mj_es_status es % 16 ∧
          ext4mj_es_type (ext4mj_es_set_referenced es) = ext4mj_es_type es ∧
          ext4mj_es_type (ext4mj_es_clear_referenced es) = ext4mj_es_type es := by
  refine ⟨ES_SHIFT_eq, fun i => ?_, fun i => ?_, fun es => ⟨?_, ?_, ?_, ?_, ?_, ?_, ?_, ?_⟩⟩
  · rw [testBit_ES_MASK]
    simp only [Bool.and_eq_true, decide_eq_true_eq]
    omega
  · rw [testBit_ES_TYPE_MASK]
    simp only [Bool.and_eq_true, decide_eq_true_eq]
    omega
  · rw [is_written_eq]; simp
  · rw [is_unwritten_eq]; simp
  · rw [is_delayed_eq]; simp
  · rw [is_hole_eq]; simp
  · rw [is_referenced_eq]; simp
  · apply Nat.eq_of_testBit_eq
    intro i
    have e : (16 : Nat) = 2 ^ 4 := by decide
    rw [e, Nat.testBit_mod_two_pow, testBit_type, testBit_status]
    by_cases hi : i < 4
    · have h1 : i < 32 := by omega
      simp [hi, h1]
    · simp [hi]
  · apply Nat.eq_of_testBit_eq
    intro i
    rw [testBit_type, testBit_type, testBit_set_referenced]
    by_cases hi : i < 4
    · have h1 : ¬ 59 + i = 63 := by omega
      simp [hi, h1]
    · simp [hi]
  · apply Nat.eq_of_testBit_eq
    intro i
    rw [testBit_type, testBit_type, testBit_clear_referenced]
    by_cases hi : i < 4
    · have h1 : 59 + i < 63 := by omega
      simp [hi, h1]
    · simp [hi]

end Ext4mj
